import Mathlib

/-!
Verification development for the ExaTN execution core:
the tensor-operation dependency graph (DirectedBoostGraph, src/unnamed/part_000)
with its execution-state hazard tracker, and the heuristic contraction-sequence
optimizer (ContractionSeqOptimizerHeuro, src/unnamed/part_001).

Tensors are identified by their stable integer hash (Nat).  Vertex ids are Nat.
Floating-point values (the double flop counters and edge weights) are modelled
by an arbitrary linearly ordered type with the needed additive structure, of
which the rationals are one instance; the properties proved here are
order-theoretic and do not depend on rounding.  Witnesses instantiate the
integers for concrete evaluation.
-/

/-- A tensor operation as consumed by the dependency graph: the output tensor
operand at position 0 and the input tensor operands at positions 1 and up
(TensorOperation exposes getTensorOperand; opcode and scalars do not affect
graph construction). -/
structure TensorOp where
  out : Nat
  ins : List Nat
deriving DecidableEq, Repr

/-- Modelled from the spec: the read/write epoch of a tensor kept by
TensorExecState (tensor_exec_state is not among the provided sources).
A tensor is either in a write epoch (one writer node, epoch tag below zero)
or in a read epoch (the reader nodes since the last write, tag at least 0). -/
inductive Epoch where
  | write : Nat → Epoch
  | read : List Nat → Epoch
deriving DecidableEq, Repr

/-- Modelled from the spec: TensorExecState, an association of tensor ids to
their current epoch. -/
abbrev TensorExecState : Type := List (Nat × Epoch)

/-- First binding of a tensor id in the execution state. -/
def lookupTensor (s : TensorExecState) (t : Nat) : Option Epoch :=
  match s with
  | [] => none
  | (u, e) :: rest => if u = t then some e else lookupTensor rest t

/-- Replaces the binding of a tensor id (or adds one). -/
def setTensor (s : TensorExecState) (t : Nat) (e : Epoch) : TensorExecState :=
  match s with
  | [] => [(t, e)]
  | (u, e0) :: rest => if u = t then (t, e) :: rest else (u, e0) :: setTensor rest t e

/-- Modelled from the spec: ExecState.getTensorEpochNodes.  Returns the nodes of
the tensor's current epoch together with the epoch tag: the single writer with
tag -1 in a write epoch, the readers with a nonnegative tag in a read epoch,
and absence (with tag 0) when the tensor is unknown. -/
def getTensorEpochNodes (s : TensorExecState) (t : Nat) : Option (List Nat) × Int :=
  match lookupTensor s t with
  | none => (none, 0)
  | some (Epoch.write w) => (some [w], -1)
  | some (Epoch.read rs) => (some rs, Int.ofNat rs.length)

/-- Modelled from the spec: ExecState.registerTensorWrite starts a fresh write
epoch holding the new writer node, clearing the previous epoch. -/
def registerTensorWrite (s : TensorExecState) (t : Nat) (v : Nat) : TensorExecState :=
  setTensor s t (Epoch.write v)

/-- Modelled from the spec: ExecState.registerTensorRead.  A reader appended
during a read epoch joins it; a reader arriving during a write epoch (or for an
unknown tensor) starts a fresh read epoch. -/
def registerTensorRead (s : TensorExecState) (t : Nat) (v : Nat) : TensorExecState :=
  match lookupTensor s t with
  | some (Epoch.read rs) => setTensor s t (Epoch.read (rs ++ [v]))
  | _ => setTensor s t (Epoch.read [v])

/-- The DAG of tensor operations (DirectedBoostGraph).  Vertices are stored in
insertion order (vecS), so the vertex id is the position; each directed edge
(dependent, dependee, weight) means the dependent may not start before the
dependee completes.  The double edge weight is modelled by an arbitrary type,
ordered with addition and units where the shortest-path run needs it. -/
structure DirectedBoostGraph (q : Type) where
  nodes : List TensorOp
  edges : List (Nat × Nat × q)
deriving DecidableEq, Repr

/-- Modelled from the spec: the weight an edge receives when created without an
explicit weight (the boost property default is outside the provided sources;
the spec fixes it to 1.0). -/
def defaultEdgeWeight {q : Type} [One q] : q := 1

/-- DirectedBoostGraph::addDependency: inserts a directed edge from the
dependent vertex to the dependee vertex. -/
def addDependency {q : Type} [One q] (g : DirectedBoostGraph q) (dependent dependee : Nat) :
    DirectedBoostGraph q :=
  { g with edges := g.edges ++ [(dependent, dependee, defaultEdgeWeight)] }

/-- DirectedBoostGraph::dependencyExists: true iff a direct edge from the first
vertex to the second exists. -/
def dependencyExists {q : Type} (g : DirectedBoostGraph q) (a b : Nat) : Bool :=
  g.edges.any (fun e => a = e.1 && b = e.2.1)

/-- DirectedBoostGraph::getNumNodes. -/
def getNumNodes {q : Type} (g : DirectedBoostGraph q) : Nat := g.nodes.length

/-- DirectedBoostGraph::getNumDependencies. -/
def getNumDependencies {q : Type} (g : DirectedBoostGraph q) : Nat := g.edges.length

/-- Adds one dependency edge per listed dependee node, in list order
(the loops over epoch-node lists inside addOperation). -/
def addDeps {q : Type} [One q] (g : DirectedBoostGraph q) (vid : Nat) :
    List Nat → DirectedBoostGraph q
  | [] => g
  | n :: ns => addDeps (addDependency g vid n) vid ns

/-- The input-operand loop of DirectedBoostGraph::addOperation: for each input
tensor in order, consult the epoch; on a write epoch add an edge to each node
of the returned list; then register the read. -/
def addOpInputs {q : Type} [One q] (vid : Nat) (g : DirectedBoostGraph q) (s : TensorExecState) :
    List Nat → DirectedBoostGraph q × TensorExecState
  | [] => (g, s)
  | t :: ts =>
    let r := getTensorEpochNodes s t
    let g2 := if r.2 < 0 then
                match r.1 with
                | some ns => addDeps g vid ns
                | none => g
              else g
    addOpInputs vid g2 (registerTensorRead s t vid) ts

/-- DirectedBoostGraph::addOperation: appends a new vertex, adds an edge to
every node of the output tensor's epoch, registers the write, then processes
the input operands, and returns the new vertex id. -/
def addOperation {q : Type} [One q] (g : DirectedBoostGraph q) (s : TensorExecState)
    (op : TensorOp) : (DirectedBoostGraph q × TensorExecState) × Nat :=
  let vid := g.nodes.length
  let g1 : DirectedBoostGraph q := { nodes := g.nodes ++ [op], edges := g.edges }
  let r0 := getTensorEpochNodes s op.out
  let g2 := match r0.1 with
            | some ns => addDeps g1 vid ns
            | none => g1
  let s1 := registerTensorWrite s op.out vid
  let gs := addOpInputs vid g2 s1 op.ins
  ((gs.1, gs.2), vid)

/-- The empty graph paired with the empty execution state. -/
def emptyGraphState {q : Type} : DirectedBoostGraph q × TensorExecState :=
  ({ nodes := [], edges := [] }, [])

/-- Builds a graph solely by a sequence of addOperation calls. -/
def buildGraph {q : Type} [One q] (ops : List TensorOp) :
    DirectedBoostGraph q × TensorExecState :=
  ops.foldl (fun gs op => (addOperation gs.1 gs.2 op).1) emptyGraphState

/-- Stated from the claim: the dependees contributed by the input operands,
consulted in order over the sequentially updated execution state.  When an
input tensor's epoch is a write epoch, its single writer node is a dependee;
a read epoch contributes nothing; afterwards the input is registered as read. -/
def claimInputDependees (vid : Nat) (s : TensorExecState) : List Nat → List Nat
  | [] => []
  | t :: ts =>
    (match lookupTensor s t with
     | some (Epoch.write w) => [w]
     | _ => []) ++ claimInputDependees vid (registerTensorRead s t vid) ts

/-- Stated from the claim: the full dependee list of a newly inserted
operation, namely every node of the output tensor's epoch, then the write-epoch
writers of the inputs consulted after the output write is registered. -/
def claimDependees (s : TensorExecState) (op : TensorOp) (vid : Nat) : List Nat :=
  ((getTensorEpochNodes s op.out).1.getD []) ++
    claimInputDependees vid (registerTensorWrite s op.out vid) op.ins

/-- Registers the input operands as read, in order. -/
def regReads (vid : Nat) (s : TensorExecState) : List Nat → TensorExecState
  | [] => s
  | t :: ts => regReads vid (registerTensorRead s t vid) ts

/-- Stated from the claim: the execution state after an insertion registers the
output as written by the new vertex and each input as read by it. -/
def claimFinalState (s : TensorExecState) (op : TensorOp) (vid : Nat) : TensorExecState :=
  regReads vid (registerTensorWrite s op.out vid) op.ins

/-- Modelled from the spec: a tensor factor as the planner sees it.  The
network's cost routine is a function of the two contracted tensors, and
mergeTensors fuses two factors into a new intermediate, so a factor is either
an original input tensor or the fusion of two factors. -/
inductive CTensor where
  | leaf : Nat → CTensor
  | fuse : CTensor → CTensor → CTensor
deriving DecidableEq, Repr

/-- Modelled from the spec: a tensor network as iterated by the planner, the
list of (factor id, tensor) pairs in iteration order, with the output tensor
at id 0 and the input factors at nonzero ids. -/
abbrev TensorNetwork : Type := List (Nat × CTensor)

/-- Modelled from the spec: TensorNetwork.getNumTensors, the number of input
factors of the network (the output tensor at id 0 is not counted). -/
def getNumTensors (nw : TensorNetwork) : Nat :=
  (nw.filter (fun p => decide (p.1 ≠ 0))).length

/-- The factor with a given id (first occurrence). -/
def findTensor (nw : TensorNetwork) (i : Nat) : Option CTensor :=
  match nw with
  | [] => none
  | p :: rest => if p.1 = i then some p.2 else findTensor rest i

/-- Removes the first factor carrying a given id. -/
def removeFirst (nw : TensorNetwork) (i : Nat) : TensorNetwork :=
  match nw with
  | [] => []
  | p :: rest => if p.1 = i then rest else p :: removeFirst rest i

/-- Modelled from the spec: TensorNetwork.mergeTensors fuses the factors with
ids i and j into a new factor carrying the given id, removing the originals;
it fails when either factor is absent. -/
def mergeTensors (nw : TensorNetwork) (i j new_id : Nat) : Option TensorNetwork :=
  match findTensor nw i with
  | none => none
  | some ti =>
    let rest := removeFirst nw i
    match findTensor rest j with
    | none => none
    | some tj => some (removeFirst rest j ++ [(new_id, CTensor.fuse ti tj)])

/-- One pairwise contraction step: result, left and right factor ids
(ContrTriple). -/
structure ContrTriple where
  result_id : Nat
  left_id : Nat
  right_id : Nat
deriving DecidableEq, Repr

/-- A contraction path (ContrPath): the current network state, the contraction
sequence that produced it, and its cumulative flop count.  The flop counter
(a double in the source) is modelled by an arbitrary linearly ordered type
with addition and zero; the rationals are one such model. -/
structure CPath (q : Type) where
  nw : TensorNetwork
  seq : List ContrTriple
  cost : q

/-- The unique unordered factor pairs of a network in iteration order: the two
nested loops of determineContractionSequence, skipping the output tensor. -/
def pairCands : TensorNetwork → List ((Nat × CTensor) × (Nat × CTensor))
  | [] => []
  | p :: rest =>
    (if p.1 ≠ 0 then (rest.filter (fun q => decide (q.1 ≠ 0))).map (fun q => (p, q)) else [])
      ++ pairCands rest

/-- Every unordered pair of a list, first component earlier. -/
def allPairs : List (Nat × CTensor) → List ((Nat × CTensor) × (Nat × CTensor))
  | [] => []
  | p :: rest => rest.map (fun q => (p, q)) ++ allPairs rest

/-- Insertion into the priority queue of contraction paths, kept sorted by
cumulative cost with the most expensive path first (the worst-on-top heap built
on cmpPaths). -/
def pqInsert {q : Type} [LinearOrder q] (x : CPath q) : List (CPath q) → List (CPath q)
  | [] => [x]
  | y :: ys => if y.cost < x.cost then x :: y :: ys else y :: pqInsert x ys

/-- Pushes one candidate and evicts the most expensive entry when the queue
exceeds the beam width (priq.emplace followed by the conditional priq.pop). -/
def capInsert {q : Type} [LinearOrder q] (w : Nat) (x : CPath q) (qu : List (CPath q)) :
    List (CPath q) :=
  let q2 := pqInsert x qu
  if w < q2.length then q2.tail else q2

/-- Feeds the candidate paths of one pass through the bounded queue in
generation order. -/
def processCands {q : Type} [LinearOrder q] (w : Nat) :
    List (CPath q) → List (CPath q) → List (CPath q)
  | [], qu => qu
  | c :: cs, qu => processCands w cs (capInsert w c qu)

/-- One child path: clone the parental network, merge the chosen pair into the
pass's intermediate id, append the contraction triple (writing into tensor 0 on
the very last pass), and add the pairwise contraction cost. -/
def mkChild {q : Type} [Add q] (fc : CTensor → CTensor → q) (lastPass : Bool) (newid : Nat)
    (p : CPath q) (pr : (Nat × CTensor) × (Nat × CTensor)) : Option (CPath q) :=
  match mergeTensors p.nw pr.1.1 pr.2.1 newid with
  | some nw2 =>
    some { nw := nw2,
           seq := p.seq ++ [{ result_id := if lastPass then 0 else newid,
                              left_id := pr.1.1, right_id := pr.2.1 }],
           cost := p.cost + fc pr.1.2 pr.2.2 }
  | none => none

/-- All children of one parental contraction path. -/
def childrenOf {q : Type} [Add q] (fc : CTensor → CTensor → q) (lastPass : Bool) (newid : Nat)
    (p : CPath q) : List (CPath q) :=
  (pairCands p.nw).filterMap (mkChild fc lastPass newid p)

/-- One pass of the beam search: generate every child of every beam path and
keep the cheapest ones in the bounded priority queue (which is empty at the
start of each pass, having been fully drained by the previous one). -/
def runPass {q : Type} [LinearOrder q] [Add q] (fc : CTensor → CTensor → q) (w : Nat)
    (lastPass : Bool) (newid : Nat) (inputPaths : List (CPath q)) : List (CPath q) :=
  processCands w (inputPaths.flatMap (childrenOf fc lastPass newid)) []

/-- The pass loop of determineContractionSequence, indexed by the number of
remaining passes.  On the last pass the queue is popped down to the cheapest
path, whose sequence and cost are the result; an empty queue there corresponds
to the out-of-domain priq.top() call and yields none. -/
def runPasses {q : Type} [LinearOrder q] [Add q] (fc : CTensor → CTensor → q) (w : Nat)
    (gen : Nat → Nat) : Nat → Nat → List (CPath q) → Option (List ContrTriple × q)
  | _, 0, _ => none
  | pass, 1, ips =>
    match (runPass fc w true (gen pass) ips).getLast? with
    | some p => some (p.seq, p.cost)
    | none => none
  | pass, k + 2, ips =>
    runPasses fc w gen (pass + 1) (k + 1) (runPass fc w false (gen pass) ips)

/-- ContractionSeqOptimizerHeuro::determineContractionSequence with beam width
w (num_walkers_): returns the contraction sequence and its cumulative flop
cost; the intermediate id generator is consumed once per pass, modelled as a
function of the pass index. -/
def determineContractionSequence {q : Type} [LinearOrder q] [Add q] [Zero q]
    (fc : CTensor → CTensor → q) (w : Nat) (network : TensorNetwork) (gen : Nat → Nat) :
    Option (List ContrTriple × q) :=
  let numContractions := getNumTensors network - 1
  if numContractions = 0 then some ([], 0)
  else runPasses fc w gen 0 numContractions [{ nw := network, seq := [], cost := 0 }]

/-- Executes a contraction sequence on a network, merging the left and right
factors of each triple into its result id. -/
def execSeq (nw : TensorNetwork) : List ContrTriple → Option TensorNetwork
  | [] => some nw
  | t :: ts =>
    match mergeTensors nw t.left_id t.right_id t.result_id with
    | some nw2 => execSeq nw2 ts
    | none => none

/-- A contraction sequence is valid for a network when, executing it step by
step, every triple's left and right ids name input factors present in the
network state at that step. -/
def validSeq (nw : TensorNetwork) : List ContrTriple → Bool
  | [] => true
  | t :: ts =>
    decide (t.left_id ≠ 0) && decide (t.right_id ≠ 0) &&
    (match mergeTensors nw t.left_id t.right_id t.result_id with
     | some nw2 => validSeq nw2 ts
     | none => false)

/-- Strict comparison of tentative distances, with absence as infinity. -/
def distLt {q : Type} [LinearOrder q] : Option q → Option q → Bool
  | some a, some b => decide (a < b)
  | some _, none => true
  | none, _ => false

/-- The mutable maps driven by the shortest-path run: tentative distances
(none meaning unreached), predecessors (initialized to self), and the settled
flags. -/
structure DijkstraState (q : Type) where
  dist : List (Option q)
  pred : List Nat
  visited : List Bool
deriving DecidableEq, Repr

/-- The unsettled vertex of smallest tentative distance, smallest id first. -/
def pickMin {q : Type} [LinearOrder q] (st : DijkstraState q) : Option Nat :=
  (List.range st.dist.length).foldl
    (fun best i =>
      if st.visited.getD i true then best
      else match best with
           | none => if (st.dist.getD i none).isSome then some i else none
           | some b => if distLt (st.dist.getD i none) (st.dist.getD b none) then some i else best)
    none

/-- Relaxes one directed edge out of the vertex being settled. -/
def relaxEdge {q : Type} [LinearOrder q] [Add q] (u : Nat) (st : DijkstraState q)
    (e : Nat × Nat × q) : DijkstraState q :=
  if e.1 = u then
    match st.dist.getD u none with
    | some du =>
      if distLt (some (du + e.2.2)) (st.dist.getD e.2.1 none) then
        { st with dist := st.dist.set e.2.1 (some (du + e.2.2)),
                  pred := st.pred.set e.2.1 u }
      else st
    | none => st
  else st

/-- Settles the closest unsettled vertex and relaxes its outgoing edges. -/
def dijkstraStep {q : Type} [LinearOrder q] [Add q] (g : DirectedBoostGraph q)
    (st : DijkstraState q) : DijkstraState q :=
  match pickMin st with
  | none => st
  | some u => g.edges.foldl (relaxEdge u) { st with visited := st.visited.set u true }

/-- Runs a bounded number of settling rounds. -/
def dijkstraLoop {q : Type} [LinearOrder q] [Add q] (g : DirectedBoostGraph q) :
    Nat → DijkstraState q → DijkstraState q
  | 0, st => st
  | n + 1, st => dijkstraLoop g n (dijkstraStep g st)

/-- Modelled from the spec: DirectedBoostGraph::computeShortestPath runs
Dijkstra's algorithm (the boost implementation is outside the provided
sources) from the start vertex over the current edge weights and reports, in
vertex-id order, the minimal distance of each vertex (none for unreached) and
the predecessor on a shortest path (self for the start and for unreached
vertices). -/
def computeShortestPath {q : Type} [LinearOrder q] [Add q] [Zero q]
    (g : DirectedBoostGraph q) (startIndex : Nat) : List (Option q) × List Nat :=
  let n := g.nodes.length
  let st0 : DijkstraState q :=
    { dist := (List.range n).map (fun i => if i = startIndex then some 0 else none),
      pred := List.range n,
      visited := List.replicate n false }
  let st := dijkstraLoop g n st0
  (st.dist, st.pred)

/-- A lock or unlock call on the graph's coarse mutex. -/
inductive LockEvent where
  | lock : LockEvent
  | unlock : LockEvent
deriving DecidableEq, Repr

/-- Checks that lock and unlock calls pair up: the depth never drops below
zero and returns to zero at the end. -/
def depthsOK : Nat → List LockEvent → Bool
  | d, [] => decide (d = 0)
  | d, LockEvent.lock :: tr => depthsOK (d + 1) tr
  | d, LockEvent.unlock :: tr => if d = 0 then false else depthsOK (d - 1) tr

/-- A balanced trace: starting from depth zero, every unlock has a matching
lock and the mutex is free again on exit. -/
def balancedTrace (tr : List LockEvent) : Bool := depthsOK 0 tr

/-- Detects a lock call made while the mutex is already held. -/
def nestedFrom : Nat → List LockEvent → Bool
  | _, [] => false
  | d, LockEvent.lock :: tr => decide (1 ≤ d) || nestedFrom (d + 1) tr
  | d, LockEvent.unlock :: tr => nestedFrom (d - 1) tr

/-- True when the trace acquires the mutex re-entrantly. -/
def hasNestedAcquire (tr : List LockEvent) : Bool := nestedFrom 0 tr

/-- Lock trace of the public operations whose bodies are a single locked
section: addDependency, dependencyExists, getNodeProperties, getNumNodes,
getNumDependencies, getNeighborList, computeShortestPath and clear. -/
def plainLockTrace : List LockEvent := [LockEvent.lock, LockEvent.unlock]

/-- Lock trace of DirectedBoostGraph::getNodeDegree, which calls the public
getNeighborList inside its own locked section. -/
def getNodeDegreeLockTrace : List LockEvent :=
  [LockEvent.lock] ++ plainLockTrace ++ [LockEvent.unlock]

/-- Lock trace of DirectedBoostGraph::printIt on a graph of n nodes: one
getNeighborList call per node inside its own locked section. -/
def printItLockTrace (n : Nat) : List LockEvent :=
  [LockEvent.lock] ++ (List.replicate n plainLockTrace).flatten ++ [LockEvent.unlock]

/-- Lock trace of DirectedBoostGraph::addOperation when it inserts k dependency
edges: each edge goes through the public addDependency inside the outer locked
section. -/
def addOperationLockTrace (k : Nat) : List LockEvent :=
  [LockEvent.lock] ++ (List.replicate k plainLockTrace).flatten ++ [LockEvent.unlock]

/-- The nodes of an epoch record. -/
def epochNodes : Epoch → List Nat
  | Epoch.write w => [w]
  | Epoch.read rs => rs

/-- A queue sorted by cumulative cost with the most expensive path first. -/
abbrev sortedByCostDesc {q : Type} [LinearOrder q] (qu : List (CPath q)) : Prop :=
  List.Pairwise (fun a b => b.cost ≤ a.cost) qu

/-- Input tensor number 1 of the worked examples. -/
def te1 : CTensor := CTensor.leaf 1

/-- Input tensor number 2 of the worked examples. -/
def te2 : CTensor := CTensor.leaf 2

/-- Input tensor number 3 of the worked examples. -/
def te3 : CTensor := CTensor.leaf 3

/-- Input tensor number 4 of the worked examples. -/
def te4 : CTensor := CTensor.leaf 4

/-- The intermediate obtained by fusing tensors 1 and 2. -/
def te12 : CTensor := CTensor.fuse te1 te2

/-- The intermediate obtained by fusing tensors 3 and 4. -/
def te34 : CTensor := CTensor.fuse te3 te4

/-- A concrete pairwise contraction cost function under which a wider beam
returns a costlier schedule: the pair (1,2) is the cheapest first step and
completes cheaply, while the slightly costlier first pair (3,4) spawns
second-step children cheap enough to evict the good path from a width-2 beam
before their expensive completions are revealed. -/
def costW (a b : CTensor) : ℤ :=
  if a = te1 && b = te2 then 10
  else if a = te1 && b = te3 then 30
  else if a = te1 && b = te4 then 31
  else if a = te2 && b = te3 then 32
  else if a = te2 && b = te4 then 33
  else if a = te3 && b = te4 then 11
  else if a = te3 && b = te12 then 50
  else if a = te4 && b = te12 then 51
  else if a = te1 && b = te34 then 3
  else if a = te2 && b = te34 then 4
  else if a = te12 && b = te34 then 40
  else if a = te2 && b = CTensor.fuse te1 te34 then 100
  else if a = te1 && b = CTensor.fuse te2 te34 then 100
  else 1000

/-- A four-factor input network (output tensor at id 0). -/
def nwFour : TensorNetwork :=
  [(0, CTensor.leaf 0), (1, te1), (2, te2), (3, te3), (4, te4)]

/-- A two-factor input network (output tensor at id 0). -/
def nwTwo : TensorNetwork :=
  [(0, CTensor.leaf 0), (1, te1), (2, te2)]

/-- A three-factor input network (output tensor at id 0). -/
def nwThree : TensorNetwork :=
  [(0, CTensor.leaf 0), (1, te1), (2, te2), (3, te3)]

/-- A one-factor input network (output tensor at id 0). -/
def nwOne : TensorNetwork := [(0, CTensor.leaf 0), (1, te1)]

/-- An intermediate id generator producing the fresh nonzero ids 5, 6, 7, ... -/
def genFresh : Nat → Nat := fun p => 5 + p

/-- The diamond graph of the shortest-path scenario: vertices 0..3, edges
0 to 1 (weight 1), 0 to 2 (weight 5), 1 to 3 (weight 1), 2 to 3 (weight 1). -/
def diamondGraph : DirectedBoostGraph ℤ :=
  { nodes := [{ out := 0, ins := [] }, { out := 0, ins := [] },
              { out := 0, ins := [] }, { out := 0, ins := [] }],
    edges := [(0, 1, 1), (0, 2, 5), (1, 3, 1), (2, 3, 1)] }

/-- An operation stream free of aliased operands: two consecutive writes of
tensor 1. -/
def opsWW : List TensorOp := [{ out := 1, ins := [] }, { out := 1, ins := [] }]

/-- The beam invariant established after a given number of passes: the path's
sequence holds one triple per completed pass, executing it from the initial
network reproduces the path's network state, it is valid, the input factor
count has dropped by one per pass, and the recorded result ids are the
generator's outputs in pass order. -/
def PathInv {q0 : Type} (nw0 : TensorNetwork) (gen : Nat → Nat) (numContr pass : Nat)
    (p : CPath q0) : Prop :=
  p.seq.length = pass ∧
  execSeq nw0 p.seq = some p.nw ∧
  validSeq nw0 p.seq = true ∧
  getNumTensors p.nw + pass = numContr + 1 ∧
  p.seq.map (fun t => t.result_id) = (List.range pass).map gen

theorem depthsOK_plain_append (d : Nat) (tr : List LockEvent) :
    depthsOK d (plainLockTrace ++ tr) = depthsOK d tr := by
  simp [plainLockTrace, depthsOK]

theorem depthsOK_blocks (n d : Nat) (tr : List LockEvent) :
    depthsOK d ((List.replicate n plainLockTrace).flatten ++ tr) = depthsOK d tr := by
  induction n with
  | zero => simp
  | succ k ih => simpa [List.replicate_succ, List.append_assoc, depthsOK_plain_append] using ih

/-- C9 (amended): every public DirectedBoostGraph operation acquires the
coarse mutex on entry and its lock and unlock calls are balanced on every
normal exit, but addOperation, getNodeDegree and printIt invoke other public
graph operations (addDependency, getNeighborList) inside their own locked
section, so the mutex is acquired re-entrantly whenever such a nested call
happens. -/
theorem c9_locking_discipline :
    balancedTrace plainLockTrace = true ∧
    balancedTrace getNodeDegreeLockTrace = true ∧
    (∀ n, balancedTrace (printItLockTrace n) = true) ∧
    (∀ k, balancedTrace (addOperationLockTrace k) = true) ∧
    plainLockTrace.head? = some LockEvent.lock ∧
    getNodeDegreeLockTrace.head? = some LockEvent.lock ∧
    (∀ n, (printItLockTrace n).head? = some LockEvent.lock) ∧
    (∀ k, (addOperationLockTrace k).head? = some LockEvent.lock) ∧
    hasNestedAcquire getNodeDegreeLockTrace = true ∧
    (∀ n, hasNestedAcquire (printItLockTrace (n + 1)) = true) ∧
    (∀ k, hasNestedAcquire (addOperationLockTrace (k + 1)) = true) := by
  refine ⟨by decide, by decide, ?_, ?_, by decide, by decide, fun n => rfl, fun k => rfl,
    by decide, ?_, ?_⟩
  · intro n
    have h := depthsOK_blocks n 1 [LockEvent.unlock]
    simpa [printItLockTrace, balancedTrace, depthsOK] using h
  · intro k
    have h := depthsOK_blocks k 1 [LockEvent.unlock]
    simpa [addOperationLockTrace, balancedTrace, depthsOK] using h
  · intro n
    simp [printItLockTrace, List.replicate_succ, plainLockTrace, hasNestedAcquire, nestedFrom]
  · intro k
    simp [addOperationLockTrace, List.replicate_succ, plainLockTrace, hasNestedAcquire, nestedFrom]

/-- C9 (counterexample): the claim that no public graph operation invokes
another graph operation while holding its own lock is false: getNodeDegree
calls the public getNeighborList inside its locked section, so its lock trace
acquires the mutex at depth one. -/
theorem c9_nested_acquisition :
    hasNestedAcquire getNodeDegreeLockTrace = true ∧
    hasNestedAcquire (addOperationLockTrace 1) = true ∧
    hasNestedAcquire (printItLockTrace 1) = true := by
  exact ⟨by decide, by decide, by decide⟩

/-- C7: on the diamond graph with vertices 0..3 and weighted edges 0 to 1
(weight 1), 0 to 2 (weight 5), 1 to 3 (weight 1) and 2 to 3 (weight 1), the
shortest-path run from vertex 0 reports one entry per vertex in vertex-id
order with distances 0, 1, 5, 2 and predecessor 1 for vertex 3; and an edge
created without an explicit weight carries the default weight, which is 1.0. -/
theorem c7_diamond_shortest_path :
    computeShortestPath diamondGraph 0 = ([some 0, some 1, some 5, some 2], [0, 0, 0, 1]) ∧
    (∀ (q : Type) (_inst : One q) (g : DirectedBoostGraph q) (a b : Nat),
        (addDependency g a b).edges = g.edges ++ [(a, b, defaultEdgeWeight)]) ∧
    defaultEdgeWeight (q := ℚ) = 1 := by
  refine ⟨by decide, ?_, rfl⟩
  intro q _inst g a b
  rfl

/-- C8 (code_bug): an operation whose output tensor also appears among its
inputs makes the new vertex its own dependee: inserting the operation with
output tensor 7 and input tensor 7 into an empty graph yields vertex 0 with a
self-edge, because the input consultation happens after the output write was
registered and finds the new vertex itself as the write-epoch writer.  The
spec demands that no self-edge be produced. -/
theorem c8_alias_self_edge :
    (addOperation (emptyGraphState (q := ℤ)).1 (emptyGraphState (q := ℤ)).2
        { out := 7, ins := [7] }).2 = 0 ∧
    dependencyExists (addOperation (emptyGraphState (q := ℤ)).1 (emptyGraphState (q := ℤ)).2
        { out := 7, ins := [7] }).1.1 0 0 = true := by
  exact ⟨by decide, by decide⟩

/-- C5: on an input network with fewer than two input factors the planner
returns the empty contraction sequence and cost zero. -/
theorem c5_degenerate_network {q : Type} [LinearOrder q] [Add q] [Zero q]
    (fc : CTensor → CTensor → q) (w : Nat) (nw : TensorNetwork) (gen : Nat → Nat)
    (h : getNumTensors nw < 2) :
    determineContractionSequence fc w nw gen = some ([], 0) := by
  unfold determineContractionSequence
  have h0 : getNumTensors nw - 1 = 0 := by omega
  simp [h0]

/-- C5 (witness): the one-factor network evaluates to the empty sequence and
cost zero. -/
theorem c5_degenerate_witness :
    getNumTensors nwOne < 2 ∧
    determineContractionSequence costW 3 nwOne genFresh = some ([], 0) :=
  ⟨by decide, c5_degenerate_network costW 3 nwOne genFresh (by decide)⟩

/-- C6 (counterexample): the planner's returned cost is not monotone in the
beam width: on the four-factor network nwFour with cost function costW and
generator genFresh, beam width 2 returns cumulative cost 114 while beam width
1 returns 61, refuting the claim that the width-W cost is at most the width-1
cost for every W at least 1. -/
theorem c6_width_not_monotone :
    (determineContractionSequence costW 2 nwFour genFresh).map Prod.snd = some 114 ∧
    (determineContractionSequence costW 1 nwFour genFresh).map Prod.snd = some 61 ∧
    ¬ ((114 : ℤ) ≤ 61) :=
  ⟨by decide, by decide, by decide⟩

theorem addDeps_nodes {q : Type} [One q] (ns : List Nat) (g : DirectedBoostGraph q) (vid : Nat) :
    (addDeps g vid ns).nodes = g.nodes := by
  induction ns generalizing g with
  | nil => rfl
  | cons n ns ih => simpa [addDeps, addDependency] using ih (addDependency g vid n)

theorem addDeps_edges {q : Type} [One q] (ns : List Nat) (g : DirectedBoostGraph q) (vid : Nat) :
    (addDeps g vid ns).edges = g.edges ++ ns.map (fun n => (vid, n, defaultEdgeWeight)) := by
  induction ns generalizing g with
  | nil => simp [addDeps]
  | cons n ns ih =>
    show (addDeps (addDependency g vid n) vid ns).edges = _
    rw [ih (addDependency g vid n)]
    simp [addDependency]

theorem addOpInputs_spec {q : Type} [One q] (ts : List Nat) (vid : Nat)
    (g : DirectedBoostGraph q) (s : TensorExecState) :
    (addOpInputs vid g s ts).1.nodes = g.nodes ∧
    (addOpInputs vid g s ts).1.edges =
      g.edges ++ (claimInputDependees vid s ts).map (fun n => (vid, n, defaultEdgeWeight)) ∧
    (addOpInputs vid g s ts).2 = regReads vid s ts := by
  induction ts generalizing g s with
  | nil => simp [addOpInputs, claimInputDependees, regReads]
  | cons t ts ih =>
    cases hl : lookupTensor s t with
    | none =>
      have h1 : getTensorEpochNodes s t = (none, 0) := by
        simp [getTensorEpochNodes, hl]
      have h2 := ih g (registerTensorRead s t vid)
      simp only [addOpInputs, claimInputDependees, regReads, h1, hl]
      norm_num
      exact h2
    | some e =>
      cases e with
      | write w =>
        have h1 : getTensorEpochNodes s t = (some [w], -1) := by
          simp [getTensorEpochNodes, hl]
        have h2 := ih (addDeps g vid [w]) (registerTensorRead s t vid)
        simp only [addOpInputs, claimInputDependees, regReads, h1, hl]
        norm_num
        refine ⟨by rw [h2.1, addDeps_nodes], ?_, h2.2.2⟩
        rw [h2.2.1, addDeps_edges]
        simp [List.append_assoc]
      | read rs =>
        have h1 : getTensorEpochNodes s t = (some rs, Int.ofNat rs.length) := by
          simp [getTensorEpochNodes, hl]
        have h2 := ih g (registerTensorRead s t vid)
        have h3 : ¬ (Int.ofNat rs.length < 0) := by
          simp [Int.ofNat_nonneg, Int.not_lt]
        simp only [addOpInputs, claimInputDependees, regReads, h1, hl, if_neg h3]
        exact h2

theorem addOperation_unfold {q : Type} [One q] (g : DirectedBoostGraph q)
    (s : TensorExecState) (op : TensorOp) :
    addOperation g s op =
      (addOpInputs g.nodes.length
        (match (getTensorEpochNodes s op.out).1 with
         | some ns => addDeps { nodes := g.nodes ++ [op], edges := g.edges } g.nodes.length ns
         | none => { nodes := g.nodes ++ [op], edges := g.edges })
        (registerTensorWrite s op.out g.nodes.length) op.ins,
       g.nodes.length) := rfl

theorem addOperation_spec {q : Type} [One q] (g : DirectedBoostGraph q)
    (s : TensorExecState) (op : TensorOp) :
    (addOperation g s op).2 = g.nodes.length ∧
    (addOperation g s op).1.1.nodes = g.nodes ++ [op] ∧
    (addOperation g s op).1.1.edges =
      g.edges ++ (claimDependees s op g.nodes.length).map
        (fun n => (g.nodes.length, n, defaultEdgeWeight)) ∧
    (addOperation g s op).1.2 = claimFinalState s op g.nodes.length := by
  rw [addOperation_unfold]
  cases h0 : (getTensorEpochNodes s op.out).1 with
  | none =>
    have hin := addOpInputs_spec (q := q) op.ins g.nodes.length
      { nodes := g.nodes ++ [op], edges := g.edges }
      (registerTensorWrite s op.out g.nodes.length)
    have hcd : claimDependees s op g.nodes.length =
        claimInputDependees g.nodes.length (registerTensorWrite s op.out g.nodes.length) op.ins := by
      simp [claimDependees, h0]
    refine ⟨rfl, ?_, ?_, ?_⟩
    · simpa [h0] using hin.1
    · rw [hcd]
      simpa [h0] using hin.2.1
    · simpa [h0, claimFinalState] using hin.2.2
  | some ns =>
    have hin := addOpInputs_spec (q := q) op.ins g.nodes.length
      (addDeps { nodes := g.nodes ++ [op], edges := g.edges } g.nodes.length ns)
      (registerTensorWrite s op.out g.nodes.length)
    have hcd : claimDependees s op g.nodes.length =
        ns ++ claimInputDependees g.nodes.length
          (registerTensorWrite s op.out g.nodes.length) op.ins := by
      simp [claimDependees, h0]
    refine ⟨rfl, ?_, ?_, ?_⟩
    · rw [show ((addOpInputs g.nodes.length
          (addDeps { nodes := g.nodes ++ [op], edges := g.edges } g.nodes.length ns)
          (registerTensorWrite s op.out g.nodes.length) op.ins,
          g.nodes.length) : (DirectedBoostGraph q × TensorExecState) × Nat).1.1.nodes =
          (addOpInputs g.nodes.length
            (addDeps { nodes := g.nodes ++ [op], edges := g.edges } g.nodes.length ns)
            (registerTensorWrite s op.out g.nodes.length) op.ins).1.nodes from by simp [h0],
        hin.1, addDeps_nodes]
    · rw [hcd]
      have he := hin.2.1
      rw [addDeps_edges] at he
      simp only [h0]
      rw [he]
      simp [List.append_assoc]
    · simpa [h0, claimFinalState] using hin.2.2

/-- C1: for every insertion, the dependency edges added by addOperation are
exactly one edge from the new vertex to every node returned by
getTensorEpochNodes for the output operand, plus, for each input operand whose
epoch at consultation time is a write epoch, one edge to its single writer
node, while read-epoch inputs contribute no edge; and afterwards the output is
registered as written by the new vertex and each input as read by it. -/
theorem c1_addOperation_exact {q : Type} [One q] (g : DirectedBoostGraph q)
    (s : TensorExecState) (op : TensorOp) :
    (addOperation g s op).2 = g.nodes.length ∧
    (addOperation g s op).1.1.nodes = g.nodes ++ [op] ∧
    (addOperation g s op).1.1.edges =
      g.edges ++ (claimDependees s op g.nodes.length).map
        (fun n => (g.nodes.length, n, defaultEdgeWeight)) ∧
    (addOperation g s op).1.2 = claimFinalState s op g.nodes.length :=
  addOperation_spec g s op

theorem lookupTensor_setTensor (s : TensorExecState) (t u : Nat) (e : Epoch) :
    lookupTensor (setTensor s t e) u = if t = u then some e else lookupTensor s u := by
  induction s with
  | nil => simp [setTensor, lookupTensor]
  | cons p rest ih =>
    obtain ⟨v, e0⟩ := p
    by_cases hvt : v = t
    · subst hvt
      simp only [setTensor, if_pos rfl, lookupTensor]
      by_cases hvu : v = u
      · subst hvu
        simp
      · simp [hvu, lookupTensor]
    · simp only [setTensor, if_neg hvt, lookupTensor]
      by_cases hvu : v = u
      · subst hvu
        have htv : t ≠ v := fun hh => hvt hh.symm
        simp [htv]
      · simp [hvu, ih]

theorem lookupTensor_registerTensorRead_other (s : TensorExecState) (t u v : Nat)
    (h : t ≠ u) :
    lookupTensor (registerTensorRead s t v) u = lookupTensor s u := by
  unfold registerTensorRead
  cases lookupTensor s t with
  | none => rw [lookupTensor_setTensor, if_neg h]
  | some e =>
    cases e with
    | write w => rw [lookupTensor_setTensor, if_neg h]
    | read rs => rw [lookupTensor_setTensor, if_neg h]

theorem lookupTensor_registerTensorRead_self (s : TensorExecState) (t v : Nat) :
    ∃ rs, lookupTensor (registerTensorRead s t v) t = some (Epoch.read rs) ∧
      (∀ x ∈ rs, x = v ∨ ∃ rs0, lookupTensor s t = some (Epoch.read rs0) ∧ x ∈ rs0) := by
  unfold registerTensorRead
  cases hl : lookupTensor s t with
  | none =>
    refine ⟨[v], by rw [lookupTensor_setTensor, if_pos rfl], ?_⟩
    intro x hx
    simp only [List.mem_singleton] at hx
    exact Or.inl hx
  | some e =>
    cases e with
    | write w =>
      refine ⟨[v], by rw [lookupTensor_setTensor, if_pos rfl], ?_⟩
      intro x hx
      simp only [List.mem_singleton] at hx
      exact Or.inl hx
    | read rs =>
      refine ⟨rs ++ [v], by rw [lookupTensor_setTensor, if_pos rfl], ?_⟩
      intro x hx
      rcases List.mem_append.1 hx with hx | hx
      · exact Or.inr ⟨rs, rfl, hx⟩
      · simp only [List.mem_singleton] at hx
        exact Or.inl hx

/-- All vertex ids recorded in the execution state are below the bound. -/
def stateBelow (s : TensorExecState) (n : Nat) : Prop :=
  ∀ t e, lookupTensor s t = some e → ∀ v ∈ epochNodes e, v < n

/-- All edges point from a vertex below the node count back to a smaller
vertex id. -/
def edgesBelow {q : Type} (g : DirectedBoostGraph q) : Prop :=
  ∀ e ∈ g.edges, e.2.1 < e.1 ∧ e.1 < g.nodes.length

theorem stateBelow_mono {s : TensorExecState} {m n : Nat} (h : m ≤ n)
    (hs : stateBelow s m) : stateBelow s n :=
  fun t e hl v hv => lt_of_lt_of_le (hs t e hl v hv) h

theorem stateBelow_registerTensorRead {s : TensorExecState} {n t v : Nat}
    (hs : stateBelow s n) (hv : v < n) : stateBelow (registerTensorRead s t v) n := by
  intro u e hl x hx
  by_cases htu : t = u
  · subst htu
    obtain ⟨rs, hrs, hmem⟩ := lookupTensor_registerTensorRead_self s t v
    rw [hl] at hrs
    cases hrs
    simp only [epochNodes] at hx
    rcases hmem x hx with hxv | ⟨rs0, hl0, hx0⟩
    · exact hxv ▸ hv
    · exact hs t (Epoch.read rs0) hl0 x (by simpa [epochNodes] using hx0)
  · rw [lookupTensor_registerTensorRead_other s t u v htu] at hl
    exact hs u e hl x hx

theorem stateBelow_registerTensorWrite {s : TensorExecState} {n t v : Nat}
    (hs : stateBelow s n) (hv : v < n) : stateBelow (registerTensorWrite s t v) n := by
  intro u e hl x hx
  rw [registerTensorWrite, lookupTensor_setTensor] at hl
  by_cases htu : t = u
  · rw [if_pos htu] at hl
    cases hl
    simp only [epochNodes, List.mem_singleton] at hx
    exact hx ▸ hv
  · rw [if_neg htu] at hl
    exact hs u e hl x hx

theorem stateBelow_regReads {n v : Nat} :
    ∀ (ts : List Nat) (s : TensorExecState), stateBelow s n → v < n →
      stateBelow (regReads v s ts) n := by
  intro ts
  induction ts with
  | nil => intro s hs _; exact hs
  | cons t ts ih =>
    intro s hs hv
    exact ih (registerTensorRead s t v) (stateBelow_registerTensorRead hs hv) hv

theorem claimInputDependees_bound {vid out0 : Nat} :
    ∀ (ts : List Nat) (s : TensorExecState), out0 ∉ ts →
      (∀ t w, t ≠ out0 → lookupTensor s t = some (Epoch.write w) → w < vid) →
      ∀ x ∈ claimInputDependees vid s ts, x < vid := by
  intro ts
  induction ts with
  | nil => intro s _ _ x hx; simp [claimInputDependees] at hx
  | cons t ts ih =>
    intro s hout hw x hx
    have htne : t ≠ out0 := fun hh => hout (hh ▸ List.mem_cons_self t ts)
    have houts : out0 ∉ ts := fun hh => hout (List.mem_cons_of_mem t hh)
    simp only [claimInputDependees, List.mem_append] at hx
    rcases hx with hx | hx
    · cases hl : lookupTensor s t with
      | none => rw [hl] at hx; simp at hx
      | some e =>
        cases e with
        | write w =>
          rw [hl] at hx
          simp only [List.mem_singleton] at hx
          exact hx ▸ hw t w htne hl
        | read rs => rw [hl] at hx; simp at hx
    · refine ih (registerTensorRead s t vid) houts ?_ x hx
      intro u w hu hl
      by_cases htu : t = u
      · subst htu
        obtain ⟨rs, hrs, _⟩ := lookupTensor_registerTensorRead_self s t vid
        rw [hl] at hrs
        cases hrs
      · rw [lookupTensor_registerTensorRead_other s t u vid htu] at hl
        exact hw u w hu hl

theorem claimDependees_bound {s : TensorExecState} {op : TensorOp} {vid : Nat}
    (hs : stateBelow s vid) (halias : op.out ∉ op.ins) :
    ∀ x ∈ claimDependees s op vid, x < vid := by
  intro x hx
  simp only [claimDependees, List.mem_append] at hx
  rcases hx with hx | hx
  · cases hl : lookupTensor s op.out with
    | none =>
      rw [show (getTensorEpochNodes s op.out).1 = none by simp [getTensorEpochNodes, hl]] at hx
      simp at hx
    | some e =>
      have h1 : (getTensorEpochNodes s op.out).1 = some (epochNodes e) := by
        cases e <;> simp [getTensorEpochNodes, hl, epochNodes]
      rw [h1] at hx
      exact hs op.out e hl x (by simpa using hx)
  · refine claimInputDependees_bound op.ins
      (registerTensorWrite s op.out vid) halias ?_ x hx
    intro u w hu hl
    rw [registerTensorWrite, lookupTensor_setTensor, if_neg (fun hh => hu hh.symm)] at hl
    exact hs u (Epoch.write w) hl w (by simp [epochNodes])

theorem addOperation_invariant {q : Type} [One q] {g : DirectedBoostGraph q}
    {s : TensorExecState} {op : TensorOp}
    (hg : edgesBelow g) (hs : stateBelow s g.nodes.length) (halias : op.out ∉ op.ins) :
    edgesBelow (addOperation g s op).1.1 ∧
    stateBelow (addOperation g s op).1.2 (addOperation g s op).1.1.nodes.length := by
  obtain ⟨hv, hn, he, hst⟩ := addOperation_spec g s op
  constructor
  · intro e hee
    rw [he] at hee
    rw [hn]
    rcases List.mem_append.1 hee with hee | hee
    · obtain ⟨h1, h2⟩ := hg e hee
      exact ⟨h1, by simpa using Nat.lt_succ_of_lt h2⟩
    · obtain ⟨x, hx, hxe⟩ := List.mem_map.1 hee
      cases hxe
      exact ⟨claimDependees_bound hs halias x hx, by simp⟩
  · rw [hst, hn, claimFinalState]
    have h1 : stateBelow s (g.nodes.length + 1) := stateBelow_mono (Nat.le_succ _) hs
    have h2 := stateBelow_registerTensorWrite (t := op.out) h1 (Nat.lt_succ_self _)
    have h3 := stateBelow_regReads op.ins _ h2 (Nat.lt_succ_self _)
    simpa using h3

theorem buildGraph_go {q : Type} [One q] :
    ∀ (ops : List TensorOp) (gs : DirectedBoostGraph q × TensorExecState),
      (∀ op ∈ ops, op.out ∉ op.ins) →
      edgesBelow gs.1 → stateBelow gs.2 gs.1.nodes.length →
      edgesBelow (ops.foldl (fun gs op => (addOperation gs.1 gs.2 op).1) gs).1 ∧
      stateBelow (ops.foldl (fun gs op => (addOperation gs.1 gs.2 op).1) gs).2
        (ops.foldl (fun gs op => (addOperation gs.1 gs.2 op).1) gs).1.nodes.length := by
  intro ops
  induction ops with
  | nil => intro gs _ hg hs; exact ⟨hg, hs⟩
  | cons op ops ih =>
    intro gs hops hg hs
    have hop : op.out ∉ op.ins := hops op (List.mem_cons_self op ops)
    have hrest : ∀ o ∈ ops, o.out ∉ o.ins := fun o ho => hops o (List.mem_cons_of_mem op ho)
    obtain ⟨hg2, hs2⟩ := addOperation_invariant hg hs hop
    exact ih (addOperation gs.1 gs.2 op).1 hrest hg2 hs2

/-- C2 (amended): for every graph built solely by addOperation calls in which
no operation carries its output tensor among its inputs, every dependency edge
points from the newly inserted vertex back to a strictly smaller vertex id, so
the graph is acyclic by construction. -/
theorem c2_acyclic_without_aliasing {q : Type} [One q] (ops : List TensorOp)
    (hops : ∀ op ∈ ops, op.out ∉ op.ins) (a b : Nat)
    (h : dependencyExists (buildGraph (q := q) ops).1 a b = true) : b < a := by
  have hstart : stateBelow (emptyGraphState (q := q)).2
      (emptyGraphState (q := q)).1.nodes.length := by
    intro t e hl
    simp [emptyGraphState, lookupTensor] at hl
  have hginv := (buildGraph_go ops emptyGraphState hops
    (fun e he => by simp [emptyGraphState] at he) hstart).1
  rw [dependencyExists, List.any_eq_true] at h
  obtain ⟨e, he, hab⟩ := h
  rw [Bool.and_eq_true, decide_eq_true_eq, decide_eq_true_eq] at hab
  obtain ⟨ha, hb⟩ := hab
  have := (hginv e he).1
  rw [← ha, ← hb] at this
  exact this

/-- C2 (witness): two successive writes of tensor 1 are alias-free and produce
the single edge from vertex 1 back to vertex 0. -/
theorem c2_acyclic_witness :
    (∀ op ∈ opsWW, op.out ∉ op.ins) ∧
    dependencyExists (buildGraph (q := ℤ) opsWW).1 1 0 = true ∧ 0 < 1 :=
  ⟨by decide, by decide, c2_acyclic_without_aliasing (q := ℤ) opsWW (by decide) 1 0 (by decide)⟩

/-- C2 (counterexample): a graph built solely by addOperation calls can hold
an edge that does not point to a smaller vertex id: the single aliased
operation writing and reading tensor 5 yields a self-edge at vertex 0, so
dependencyExists 0 0 holds while 0 < 0 does not. -/
theorem c2_alias_cycle :
    dependencyExists (buildGraph (q := ℤ) [{ out := 5, ins := [5] }]).1 0 0 = true ∧
    ¬ (0 < 0) :=
  ⟨by decide, by decide⟩

theorem pqInsert_perm {q0 : Type} [LinearOrder q0] (x : CPath q0) (qu : List (CPath q0)) :
    List.Perm (pqInsert x qu) (x :: qu) := by
  induction qu with
  | nil => simp [pqInsert]
  | cons y ys ih =>
    by_cases h : y.cost < x.cost
    · simp [pqInsert, h]
    · simp only [pqInsert, if_neg h]
      exact (ih.cons y).trans (List.Perm.swap x y ys)

theorem pqInsert_length {q0 : Type} [LinearOrder q0] (x : CPath q0) (qu : List (CPath q0)) :
    (pqInsert x qu).length = qu.length + 1 := by
  simpa using (pqInsert_perm x qu).length_eq

theorem mem_pqInsert {q0 : Type} [LinearOrder q0] {a x : CPath q0} {qu : List (CPath q0)} :
    a ∈ pqInsert x qu ↔ a = x ∨ a ∈ qu := by
  rw [(pqInsert_perm x qu).mem_iff]
  simp

theorem pqInsert_sorted {q0 : Type} [LinearOrder q0] {x : CPath q0} {qu : List (CPath q0)}
    (h : sortedByCostDesc qu) : sortedByCostDesc (pqInsert x qu) := by
  induction qu with
  | nil => simp [pqInsert, sortedByCostDesc]
  | cons y ys ih =>
    have h' := List.pairwise_cons.1 h
    by_cases hlt : y.cost < x.cost
    · simp only [pqInsert, if_pos hlt]
      refine List.Pairwise.cons ?_ h
      intro b hb
      rcases List.mem_cons.1 hb with rfl | hb
      · exact le_of_lt hlt
      · exact le_trans (h'.1 b hb) (le_of_lt hlt)
    · simp only [pqInsert, if_neg hlt]
      refine List.Pairwise.cons ?_ (ih h'.2)
      intro b hb
      rcases mem_pqInsert.1 hb with rfl | hb
      · exact le_of_not_lt hlt
      · exact h'.1 b hb

theorem capInsert_eq_of_le {q0 : Type} [LinearOrder q0] {w : Nat} {x : CPath q0}
    {qu : List (CPath q0)} (h : (pqInsert x qu).length ≤ w) :
    capInsert w x qu = pqInsert x qu := by
  simp [capInsert, Nat.not_lt.2 h]

theorem capInsert_eq_tail {q0 : Type} [LinearOrder q0] {w : Nat} {x : CPath q0}
    {qu : List (CPath q0)} (h : w < (pqInsert x qu).length) :
    capInsert w x qu = (pqInsert x qu).tail := by
  simp [capInsert, h]

theorem mem_processCands {q0 : Type} [LinearOrder q0] {w : Nat} :
    ∀ {cs qu : List (CPath q0)} {a : CPath q0},
      a ∈ processCands w cs qu → a ∈ cs ∨ a ∈ qu := by
  intro cs
  induction cs with
  | nil => intro qu a ha; exact Or.inr ha
  | cons c cs ih =>
    intro qu a ha
    rcases ih ha with h | h
    · exact Or.inl (List.mem_cons_of_mem c h)
    · have hmem : a ∈ pqInsert c qu := by
        by_cases hlen : w < (pqInsert c qu).length
        · rw [capInsert_eq_tail hlen] at h
          exact List.mem_of_mem_tail h
        · rw [capInsert_eq_of_le (Nat.not_lt.1 hlen)] at h
          exact h
      rcases mem_pqInsert.1 hmem with rfl | hq
      · exact Or.inl (List.mem_cons_self _ _)
      · exact Or.inr hq

theorem processCands_bound {q0 : Type} [LinearOrder q0] {w : Nat} {M : q0} :
    ∀ (cs qu : List (CPath q0)), qu.length = w → (∀ y ∈ qu, y.cost ≤ M) →
      ∀ a ∈ processCands w cs qu, a.cost ≤ M := by
  intro cs
  induction cs with
  | nil => intro qu _ hb a ha; exact hb a ha
  | cons c cs ih =>
    intro qu hlen hb a ha
    have hred : processCands w (c :: cs) qu = processCands w cs (capInsert w c qu) := rfl
    rw [hred] at ha
    have hpop : w < (pqInsert c qu).length := by rw [pqInsert_length, hlen]; omega
    by_cases hc : c.cost ≤ M
    · refine ih (capInsert w c qu) ?_ ?_ a ha
      · rw [capInsert_eq_tail hpop, List.length_tail, pqInsert_length, hlen]
        omega
      · intro y hy
        rw [capInsert_eq_tail hpop] at hy
        rcases mem_pqInsert.1 (List.mem_of_mem_tail hy) with rfl | hq
        · exact hc
        · exact hb y hq
    · have hcap : capInsert w c qu = qu := by
        rcases hq : qu with _ | ⟨y, ys⟩
        · have hw : w = 0 := by
            rw [← hlen, hq]
            rfl
          subst hw
          simp [capInsert, pqInsert]
        · have hyc : y.cost < c.cost :=
            lt_of_le_of_lt (hb y (by rw [hq]; exact List.mem_cons_self y ys))
              (lt_of_not_le hc)
          have hins : pqInsert c (y :: ys) = c :: y :: ys := by
            simp [pqInsert, hyc]
          have hpop2 : w < (pqInsert c (y :: ys)).length := by
            rw [← hq]
            exact hpop
          rw [capInsert_eq_tail hpop2, hins]
          rfl
      rw [hcap] at ha
      exact ih qu hlen hb a ha

theorem processCands_spec {q0 : Type} [LinearOrder q0] {w : Nat} :
    ∀ (cs qu : List (CPath q0)), sortedByCostDesc qu → qu.length ≤ w →
      ∃ dropped : List (CPath q0),
        List.Perm (processCands w cs qu ++ dropped) (qu ++ cs) ∧
        sortedByCostDesc (processCands w cs qu) ∧
        (processCands w cs qu).length = min w (qu.length + cs.length) ∧
        ∀ a ∈ processCands w cs qu, ∀ b ∈ dropped, a.cost ≤ b.cost := by
  intro cs
  induction cs with
  | nil =>
    intro qu hs hlen
    refine ⟨[], by simp [processCands], hs, ?_, by simp⟩
    simp only [processCands, List.length_nil, Nat.add_zero]
    omega
  | cons c cs ih =>
    intro qu hs hlen
    have hred : processCands w (c :: cs) qu = processCands w cs (capInsert w c qu) := rfl
    by_cases hfull : (pqInsert c qu).length ≤ w
    · have hcap : capInsert w c qu = pqInsert c qu := capInsert_eq_of_le hfull
      obtain ⟨d1, hperm, hsort, hlen2, hdom⟩ := ih (pqInsert c qu) (pqInsert_sorted hs) hfull
      rw [hcap] at hred
      refine ⟨d1, ?_, by rw [hred]; exact hsort, ?_, ?_⟩
      · rw [hred]
        refine hperm.trans ?_
        refine (((pqInsert_perm c qu).append_right cs).trans ?_)
        exact List.perm_middle.symm
      · rw [hred, hlen2, pqInsert_length]
        simp only [List.length_cons]
        omega
      · rw [hred]
        exact hdom
    · have hpop : w < (pqInsert c qu).length := Nat.not_le.1 hfull
      have hquw : qu.length = w := by
        rw [pqInsert_length] at hpop
        omega
      cases hq2 : pqInsert c qu with
      | nil =>
        rw [hq2] at hpop
        simp at hpop
      | cons hd q3 =>
        have hcap : capInsert w c qu = q3 := by
          rw [capInsert_eq_tail hpop, hq2]
          rfl
        have hsort2 : sortedByCostDesc (hd :: q3) := by
          rw [← hq2]; exact pqInsert_sorted hs
        have hdmax : ∀ a ∈ q3, a.cost ≤ hd.cost := (List.pairwise_cons.1 hsort2).1
        have hsort3 : sortedByCostDesc q3 := (List.pairwise_cons.1 hsort2).2
        have hq3len : q3.length = w := by
          have := pqInsert_length c qu
          rw [hq2] at this
          simp only [List.length_cons] at this
          omega
        obtain ⟨d1, hperm, hsort, hlen2, hdom⟩ := ih q3 hsort3 (le_of_eq hq3len)
        have hbnd := processCands_bound cs q3 hq3len hdmax
        rw [hcap] at hred
        refine ⟨d1 ++ [hd], ?_, by rw [hred]; exact hsort, ?_, ?_⟩
        · rw [hred, ← List.append_assoc]
          refine ((hperm.append_right [hd]).trans ?_)
          refine (List.perm_append_singleton hd (q3 ++ cs)).trans ?_
          have h1 : List.Perm (hd :: (q3 ++ cs)) ((c :: qu) ++ cs) := by
            have h2 : List.Perm (hd :: q3) (c :: qu) := hq2 ▸ pqInsert_perm c qu
            exact h2.append_right cs
          exact h1.trans List.perm_middle.symm
        · rw [hred, hlen2, hq3len]
          simp only [List.length_cons]
          omega
        · intro a ha b hb
          rw [hred] at ha
          rcases List.mem_append.1 hb with hb | hb
          · exact hdom a ha b hb
          · rcases List.mem_singleton.1 hb with rfl
            exact hbnd a ha

/-- C4: during every pass of the beam search, whenever the queue exceeds the
beam width the most expensive entry is evicted, so at the pass boundary the
queue holds at most W paths, sorted with the most expensive on top, and those
paths are exactly the W lowest-cumulative-cost candidates generated in that
pass: the kept and dropped candidates partition the pass's candidates and
every kept cost is at most every dropped cost. -/
theorem c4_pass_keeps_cheapest {q0 : Type} [LinearOrder q0] [Add q0]
    (fc : CTensor → CTensor → q0) (w : Nat) (lastPass : Bool) (newid : Nat)
    (ips : List (CPath q0)) :
    ∃ dropped : List (CPath q0),
      List.Perm (runPass fc w lastPass newid ips ++ dropped)
        (ips.flatMap (childrenOf fc lastPass newid)) ∧
      sortedByCostDesc (runPass fc w lastPass newid ips) ∧
      (runPass fc w lastPass newid ips).length =
        min w (ips.flatMap (childrenOf fc lastPass newid)).length ∧
      ∀ a ∈ runPass fc w lastPass newid ips, ∀ b ∈ dropped, a.cost ≤ b.cost := by
  obtain ⟨d, h1, h2, h3, h4⟩ :=
    processCands_spec (w := w) (ips.flatMap (childrenOf fc lastPass newid)) []
      (by simp [sortedByCostDesc]) (by simp)
  refine ⟨d, by simpa [runPass] using h1, h2, ?_, h4⟩
  simpa [runPass] using h3

theorem pairCands_eq_allPairs : ∀ nw : TensorNetwork,
    pairCands nw = allPairs (nw.filter (fun p => decide (p.1 ≠ 0))) := by
  intro nw
  induction nw with
  | nil => rfl
  | cons p rest ih =>
    by_cases hp : p.1 ≠ 0
    · have hf : (p :: rest).filter (fun x => decide (x.1 ≠ 0)) =
          p :: rest.filter (fun x => decide (x.1 ≠ 0)) := by
        simp [List.filter_cons, hp]
      rw [hf]
      simp only [pairCands, if_pos hp, allPairs]
      rw [ih]
    · have hf : (p :: rest).filter (fun x => decide (x.1 ≠ 0)) =
          rest.filter (fun x => decide (x.1 ≠ 0)) := by
        simp [List.filter_cons, hp]
      rw [hf, ← ih]
      simp [pairCands, hp]

theorem processCands_singleton {q0 : Type} [LinearOrder q0] {w : Nat} (hw : 1 ≤ w)
    (ch : CPath q0) : processCands w [ch] [] = [ch] := by
  have h1 : capInsert w ch [] = [ch] :=
    capInsert_eq_of_le (by rw [pqInsert_length]; simpa using hw)
  show processCands w [] (capInsert w ch []) = [ch]
  rw [h1]
  rfl

theorem runPasses_one {q0 : Type} [LinearOrder q0] [Add q0] (fc : CTensor → CTensor → q0)
    (w : Nat) (gen : Nat → Nat) (pass : Nat) (ips : List (CPath q0)) :
    runPasses fc w gen pass 1 ips =
      match (runPass fc w true (gen pass) ips).getLast? with
      | some p => some (p.seq, p.cost)
      | none => none := rfl

theorem runPasses_step {q0 : Type} [LinearOrder q0] [Add q0] (fc : CTensor → CTensor → q0)
    (w : Nat) (gen : Nat → Nat) (pass k : Nat) (ips : List (CPath q0)) :
    runPasses fc w gen pass (k + 2) ips =
      runPasses fc w gen (pass + 1) (k + 1) (runPass fc w false (gen pass) ips) := rfl

/-- C6 (amended): on a fixed input network with at most two input factors and
identical intermediate id generator, the cost returned with beam width W is
the same for every W at least 1, in particular equal to the width-1 cost. -/
theorem c6_width_independent_small {q0 : Type} [LinearOrder q0] [Add q0] [Zero q0]
    (fc : CTensor → CTensor → q0) (w : Nat) (nw : TensorNetwork) (gen : Nat → Nat)
    (hn : getNumTensors nw ≤ 2) (hw : 1 ≤ w) :
    determineContractionSequence fc w nw gen = determineContractionSequence fc 1 nw gen := by
  by_cases h2 : getNumTensors nw < 2
  · have h0 : getNumTensors nw - 1 = 0 := by omega
    unfold determineContractionSequence
    simp [h0]
  · have hn2 : getNumTensors nw = 2 := by omega
    have h1 : getNumTensors nw - 1 = 1 := by omega
    obtain ⟨a, b, hab⟩ := List.length_eq_two.1 (by
      show (nw.filter (fun p => decide (p.1 ≠ 0))).length = 2
      exact hn2)
    have hpc : pairCands nw = [(a, b)] := by
      rw [pairCands_eq_allPairs, hab]
      rfl
    have hrun : ∀ w2 : Nat, 1 ≤ w2 →
        runPasses fc w2 gen 0 1 [⟨nw, [], 0⟩] =
          (mkChild fc true (gen 0) ⟨nw, [], 0⟩ (a, b)).map (fun ch => (ch.seq, ch.cost)) := by
      intro w2 hw2
      rw [runPasses_one]
      have hch : ([(⟨nw, [], 0⟩ : CPath q0)]).flatMap (childrenOf fc true (gen 0)) =
          (pairCands nw).filterMap (mkChild fc true (gen 0) ⟨nw, [], 0⟩) := by
        simp [childrenOf]
      cases hmk : mkChild fc true (gen 0) ⟨nw, [], 0⟩ (a, b) with
      | none =>
        have hemp : runPass fc w2 true (gen 0) [⟨nw, [], 0⟩] = [] := by
          rw [runPass, hch, hpc]
          simp [hmk, processCands]
        rw [hemp]
        rfl
      | some ch =>
        have hone : runPass fc w2 true (gen 0) [⟨nw, [], 0⟩] = [ch] := by
          rw [runPass, hch, hpc]
          have : ([(a, b)]).filterMap (mkChild fc true (gen 0) ⟨nw, [], 0⟩) = [ch] := by
            simp [List.filterMap, hmk]
          rw [this]
          exact processCands_singleton hw2 ch
        rw [hone]
        rfl
    unfold determineContractionSequence
    simp only [h1, one_ne_zero, if_false]
    rw [hrun w hw, hrun 1 (le_refl 1)]

/-- C6 (amended, witness): on the two-factor network the planner returns the
same result at width 7 and width 1. -/
theorem c6_width_independent_witness :
    getNumTensors nwTwo ≤ 2 ∧ 1 ≤ 7 ∧
    determineContractionSequence costW 7 nwTwo genFresh =
      determineContractionSequence costW 1 nwTwo genFresh :=
  ⟨by decide, by decide,
    c6_width_independent_small costW 7 nwTwo genFresh (by decide) (by decide)⟩

theorem allPairs_mem_decomp {l : List (Nat × CTensor)}
    {pr : (Nat × CTensor) × (Nat × CTensor)} (h : pr ∈ allPairs l) :
    ∃ l1 l2 l3, l = l1 ++ pr.1 :: (l2 ++ pr.2 :: l3) := by
  induction l with
  | nil => simp [allPairs] at h
  | cons p rest ih =>
    rw [allPairs] at h
    rcases List.mem_append.1 h with h | h
    · obtain ⟨b, hb, heq⟩ := List.mem_map.1 h
      obtain ⟨l2, l3, hsplit⟩ := List.append_of_mem hb
      refine ⟨[], l2, l3, ?_⟩
      rw [← heq]
      simp [hsplit]
    · obtain ⟨l1, l2, l3, hsplit⟩ := ih h
      exact ⟨p :: l1, l2, l3, by simp [hsplit]⟩

theorem findTensor_isSome_of_ex : ∀ (l : TensorNetwork) (i : Nat),
    (∃ e ∈ l, e.1 = i) → (findTensor l i).isSome = true := by
  intro l i
  induction l with
  | nil => intro h; simp at h
  | cons p rest ih =>
    intro h
    by_cases hp : p.1 = i
    · simp [findTensor, hp]
    · rcases h with ⟨e, he, hei⟩
      rcases List.mem_cons.1 he with rfl | he2
      · exact absurd hei hp
      · simp only [findTensor, if_neg hp]
        exact ih ⟨e, he2, hei⟩

theorem removeFirst_length : ∀ (l : TensorNetwork) (i : Nat),
    (∃ e ∈ l, e.1 = i) → (removeFirst l i).length + 1 = l.length := by
  intro l i
  induction l with
  | nil => intro h; simp at h
  | cons p rest ih =>
    intro h
    by_cases hp : p.1 = i
    · simp [removeFirst, hp]
    · rcases h with ⟨e, he, hei⟩
      rcases List.mem_cons.1 he with rfl | he2
      · exact absurd hei hp
      · simp only [removeFirst, if_neg hp, List.length_cons]
        rw [← ih ⟨e, he2, hei⟩]

theorem removeFirst_countP_self : ∀ (l : TensorNetwork) (i : Nat),
    (∃ e ∈ l, e.1 = i) →
    (removeFirst l i).countP (fun e => decide (e.1 = i)) + 1 =
      l.countP (fun e => decide (e.1 = i)) := by
  intro l i
  induction l with
  | nil => intro h; simp at h
  | cons p rest ih =>
    intro h
    by_cases hp : p.1 = i
    · simp [removeFirst, hp, List.countP_cons]
    · rcases h with ⟨e, he, hei⟩
      rcases List.mem_cons.1 he with rfl | he2
      · exact absurd hei hp
      · simp only [removeFirst, if_neg hp, List.countP_cons, hp, decide_eq_false hp,
          if_false, Nat.add_zero]
        exact ih ⟨e, he2, hei⟩

theorem removeFirst_countP_other : ∀ (l : TensorNetwork) (i j : Nat), j ≠ i →
    (removeFirst l i).countP (fun e => decide (e.1 = j)) =
      l.countP (fun e => decide (e.1 = j)) := by
  intro l i j hij
  induction l with
  | nil => rfl
  | cons p rest ih =>
    by_cases hp : p.1 = i
    · have hpj : ¬ (p.1 = j) := fun hh => hij (by rw [← hh, hp])
      have hij2 : ¬ (i = j) := fun hh => hij hh.symm
      simp [removeFirst, hp, List.countP_cons, hpj, hij2]
    · simp [removeFirst, hp, List.countP_cons, ih]

theorem countP_ex_of_pos {l : TensorNetwork} {j : Nat}
    (h : 0 < l.countP (fun e => decide (e.1 = j))) : ∃ e ∈ l, e.1 = j := by
  obtain ⟨e, he, hp⟩ := List.countP_pos_iff.1 h
  exact ⟨e, he, by simpa using hp⟩

theorem countP_pos_of_ex {l : TensorNetwork} {j : Nat}
    (h : ∃ e ∈ l, e.1 = j) : 0 < l.countP (fun e => decide (e.1 = j)) := by
  obtain ⟨e, he, hp⟩ := h
  exact List.countP_pos_iff.2 ⟨e, he, by simpa using hp⟩

theorem findTensor_filter : ∀ (nw : TensorNetwork) (i : Nat), i ≠ 0 →
    findTensor (nw.filter (fun p => decide (p.1 ≠ 0))) i = findTensor nw i := by
  intro nw i hi
  induction nw with
  | nil => rfl
  | cons p rest ih =>
    by_cases hp : p.1 ≠ 0
    · have hf : (p :: rest).filter (fun x => decide (x.1 ≠ 0)) =
          p :: rest.filter (fun x => decide (x.1 ≠ 0)) := by
        simp [List.filter_cons, hp]
      rw [hf]
      by_cases hpi : p.1 = i
      · simp [findTensor, hpi]
      · simp only [findTensor, if_neg hpi]
        exact ih
    · have hp0 : p.1 = 0 := by omega
      have hf : (p :: rest).filter (fun x => decide (x.1 ≠ 0)) =
          rest.filter (fun x => decide (x.1 ≠ 0)) := by
        simp [List.filter_cons, hp]
      have hpi : ¬ (p.1 = i) := by omega
      rw [hf, ih]
      simp [findTensor, hpi]

theorem removeFirst_filter : ∀ (nw : TensorNetwork) (i : Nat), i ≠ 0 →
    (removeFirst nw i).filter (fun p => decide (p.1 ≠ 0)) =
      removeFirst (nw.filter (fun p => decide (p.1 ≠ 0))) i := by
  intro nw i hi
  induction nw with
  | nil => rfl
  | cons p rest ih =>
    by_cases hp : p.1 ≠ 0
    · have hf : (p :: rest).filter (fun x => decide (x.1 ≠ 0)) =
          p :: rest.filter (fun x => decide (x.1 ≠ 0)) := by
        simp [List.filter_cons, hp]
      rw [hf]
      by_cases hpi : p.1 = i
      · simp [removeFirst, hpi]
      · simp only [removeFirst, if_neg hpi]
        rw [← ih]
        simp [List.filter_cons, hp]
    · have hp0 : p.1 = 0 := by omega
      have hpi : ¬ (p.1 = i) := by omega
      have hf : (p :: rest).filter (fun x => decide (x.1 ≠ 0)) =
          rest.filter (fun x => decide (x.1 ≠ 0)) := by
        simp [List.filter_cons, hp]
      rw [hf, ← ih]
      simp only [removeFirst, if_neg hpi]
      simp [List.filter_cons, hp]

theorem pairCands_merge {nw : TensorNetwork} {pr : (Nat × CTensor) × (Nat × CTensor)}
    (h : pr ∈ pairCands nw) (nid : Nat) :
    pr.1.1 ≠ 0 ∧ pr.2.1 ≠ 0 ∧
    ∃ nw2, mergeTensors nw pr.1.1 pr.2.1 nid = some nw2 ∧
      (nid ≠ 0 → getNumTensors nw2 + 1 = getNumTensors nw) := by
  rw [pairCands_eq_allPairs] at h
  obtain ⟨l1, l2, l3, hsplit⟩ := allPairs_mem_decomp h
  have hm1 : pr.1 ∈ nw.filter (fun p => decide (p.1 ≠ 0)) := by
    rw [hsplit]; simp
  have hm2 : pr.2 ∈ nw.filter (fun p => decide (p.1 ≠ 0)) := by
    rw [hsplit]; simp
  have hnz1 : pr.1.1 ≠ 0 := by simpa using (List.mem_filter.1 hm1).2
  have hnz2 : pr.2.1 ≠ 0 := by simpa using (List.mem_filter.1 hm2).2
  have hexi : ∃ e ∈ nw.filter (fun p => decide (p.1 ≠ 0)), e.1 = pr.1.1 := ⟨pr.1, hm1, rfl⟩
  have hf1 : (findTensor nw pr.1.1).isSome = true := by
    rw [← findTensor_filter nw pr.1.1 hnz1]
    exact findTensor_isSome_of_ex _ _ hexi
  have hexj : ∃ e ∈ removeFirst (nw.filter (fun p => decide (p.1 ≠ 0))) pr.1.1,
      e.1 = pr.2.1 := by
    apply countP_ex_of_pos
    by_cases hij : pr.2.1 = pr.1.1
    · have hcnt2 : 2 ≤ (nw.filter (fun p => decide (p.1 ≠ 0))).countP
          (fun e => decide (e.1 = pr.1.1)) := by
        rw [hsplit]
        simp [List.countP_append, List.countP_cons, hij]
        omega
      have := removeFirst_countP_self (nw.filter (fun p => decide (p.1 ≠ 0))) pr.1.1 hexi
      rw [hij]
      omega
    · rw [removeFirst_countP_other _ _ _ hij]
      apply countP_pos_of_ex
      exact ⟨pr.2, hm2, rfl⟩
  have hf2 : (findTensor (removeFirst nw pr.1.1) pr.2.1).isSome = true := by
    rw [← findTensor_filter _ pr.2.1 hnz2, removeFirst_filter nw pr.1.1 hnz1]
    exact findTensor_isSome_of_ex _ _ hexj
  obtain ⟨ti, hti⟩ := Option.isSome_iff_exists.1 hf1
  obtain ⟨tj, htj⟩ := Option.isSome_iff_exists.1 hf2
  have hmerge : mergeTensors nw pr.1.1 pr.2.1 nid =
      some (removeFirst (removeFirst nw pr.1.1) pr.2.1 ++
        [(nid, CTensor.fuse ti tj)]) := by
    simp only [mergeTensors, hti, htj]
  refine ⟨hnz1, hnz2, _, hmerge, ?_⟩
  intro hnid
  have hlen1 : (removeFirst (nw.filter (fun p => decide (p.1 ≠ 0))) pr.1.1).length + 1 =
      (nw.filter (fun p => decide (p.1 ≠ 0))).length :=
    removeFirst_length _ _ hexi
  have hlen2 : (removeFirst (removeFirst (nw.filter (fun p => decide (p.1 ≠ 0))) pr.1.1)
      pr.2.1).length + 1 =
      (removeFirst (nw.filter (fun p => decide (p.1 ≠ 0))) pr.1.1).length :=
    removeFirst_length _ _ hexj
  show ((removeFirst (removeFirst nw pr.1.1) pr.2.1 ++
      [(nid, CTensor.fuse ti tj)]).filter (fun p => decide (p.1 ≠ 0))).length + 1 =
      (nw.filter (fun p => decide (p.1 ≠ 0))).length
  rw [List.filter_append]
  have hfsing : ([(nid, CTensor.fuse ti tj)] : TensorNetwork).filter
      (fun p => decide (p.1 ≠ 0)) = [(nid, CTensor.fuse ti tj)] := by
    simp [List.filter_cons, hnid]
  rw [hfsing, removeFirst_filter _ pr.2.1 hnz2, removeFirst_filter nw pr.1.1 hnz1]
  simp only [List.length_append, List.length_cons, List.length_nil]
  omega

theorem mkChild_some {q0 : Type} [Add q0] {fc : CTensor → CTensor → q0} {lastPass : Bool}
    {newid : Nat} {p x : CPath q0} {pr : (Nat × CTensor) × (Nat × CTensor)}
    (h : mkChild fc lastPass newid p pr = some x) :
    ∃ nw2, mergeTensors p.nw pr.1.1 pr.2.1 newid = some nw2 ∧
      x.nw = nw2 ∧
      x.seq = p.seq ++ [{ result_id := if lastPass then 0 else newid,
                          left_id := pr.1.1, right_id := pr.2.1 }] ∧
      x.cost = p.cost + fc pr.1.2 pr.2.2 := by
  unfold mkChild at h
  cases hm : mergeTensors p.nw pr.1.1 pr.2.1 newid with
  | none => rw [hm] at h; cases h
  | some nw2 =>
    rw [hm] at h
    cases h
    exact ⟨nw2, rfl, rfl, rfl, rfl⟩

theorem execSeq_append_single : ∀ (seq : List ContrTriple) (nw0 nw1 : TensorNetwork)
    (t : ContrTriple), execSeq nw0 seq = some nw1 →
    execSeq nw0 (seq ++ [t]) = mergeTensors nw1 t.left_id t.right_id t.result_id := by
  intro seq
  induction seq with
  | nil =>
    intro nw0 nw1 t h
    rw [execSeq] at h
    cases h
    show execSeq nw0 [t] = _
    rw [execSeq]
    cases hm : mergeTensors nw0 t.left_id t.right_id t.result_id with
    | none => rfl
    | some m => rfl
  | cons s ss ih =>
    intro nw0 nw1 t h
    rw [execSeq] at h
    show execSeq nw0 (s :: (ss ++ [t])) = _
    rw [execSeq]
    cases hm : mergeTensors nw0 s.left_id s.right_id s.result_id with
    | none => rw [hm] at h; cases h
    | some m =>
      rw [hm] at h
      exact ih m nw1 t h

theorem validSeq_append_single : ∀ (seq : List ContrTriple) (nw0 nw1 : TensorNetwork)
    (t : ContrTriple), execSeq nw0 seq = some nw1 → validSeq nw0 seq = true →
    t.left_id ≠ 0 → t.right_id ≠ 0 →
    (mergeTensors nw1 t.left_id t.right_id t.result_id).isSome = true →
    validSeq nw0 (seq ++ [t]) = true := by
  intro seq
  induction seq with
  | nil =>
    intro nw0 nw1 t hex _ hl hr hm
    rw [execSeq] at hex
    cases hex
    show validSeq nw0 [t] = true
    rw [validSeq]
    obtain ⟨m, hm2⟩ := Option.isSome_iff_exists.1 hm
    rw [hm2]
    simp [hl, hr, validSeq]
  | cons s ss ih =>
    intro nw0 nw1 t hex hv hl hr hm
    rw [execSeq] at hex
    rw [validSeq] at hv
    show validSeq nw0 (s :: (ss ++ [t])) = true
    rw [validSeq]
    cases hmm : mergeTensors nw0 s.left_id s.right_id s.result_id with
    | none =>
      rw [hmm] at hex
      cases hex
    | some m =>
      rw [hmm] at hex hv
      simp only [Bool.and_eq_true, decide_eq_true_eq] at hv
      simp only [Bool.and_eq_true, decide_eq_true_eq]
      exact ⟨⟨hv.1.1, hv.1.2⟩, ih m nw1 t hex hv.2 hl hr hm⟩

theorem child_inv {q0 : Type} [Add q0] {fc : CTensor → CTensor → q0} {nw0 : TensorNetwork}
    {gen : Nat → Nat} {numContr pass : Nat} {p x : CPath q0}
    (hp : PathInv nw0 gen numContr pass p) (hg : gen pass ≠ 0)
    (hx : x ∈ childrenOf fc false (gen pass) p) :
    PathInv nw0 gen numContr (pass + 1) x := by
  obtain ⟨pr, hpr, hmk⟩ := List.mem_filterMap.1 hx
  obtain ⟨hnz1, hnz2, nw2, hm, hcnt⟩ := pairCands_merge hpr (gen pass)
  obtain ⟨nw2b, hm2, hxnw, hxseq, _⟩ := mkChild_some hmk
  rw [hm] at hm2
  cases hm2
  obtain ⟨hplen, hpex, hpval, hpcnt, hpids⟩ := hp
  refine ⟨?_, ?_, ?_, ?_, ?_⟩
  · rw [hxseq]
    simp [hplen]
  · rw [hxseq, execSeq_append_single p.seq nw0 p.nw _ hpex]
    show mergeTensors p.nw pr.1.1 pr.2.1 (gen pass) = some x.nw
    rw [hm, hxnw]
  · rw [hxseq]
    refine validSeq_append_single p.seq nw0 p.nw _ hpex hpval (by simpa using hnz1)
      (by simpa using hnz2) ?_
    show (mergeTensors p.nw pr.1.1 pr.2.1 (gen pass)).isSome = true
    rw [hm]
    rfl
  · rw [hxnw]
    have := hcnt hg
    omega
  · rw [hxseq, List.map_append, hpids, List.range_succ, List.map_append]
    simp

theorem child_last_inv {q0 : Type} [Add q0] {fc : CTensor → CTensor → q0}
    {nw0 : TensorNetwork} {gen : Nat → Nat} {numContr pass nid : Nat} {p x : CPath q0}
    (hp : PathInv nw0 gen numContr pass p)
    (hx : x ∈ childrenOf fc true nid p) :
    x.seq.length = pass + 1 ∧
    x.seq.map (fun t => t.result_id) = (List.range pass).map gen ++ [0] ∧
    validSeq nw0 x.seq = true := by
  obtain ⟨pr, hpr, hmk⟩ := List.mem_filterMap.1 hx
  obtain ⟨hnz1, hnz2, nw2, hm, _⟩ := pairCands_merge hpr 0
  obtain ⟨nw2b, hm2, _, hxseq, _⟩ := mkChild_some hmk
  obtain ⟨hplen, hpex, hpval, _, hpids⟩ := hp
  refine ⟨?_, ?_, ?_⟩
  · rw [hxseq]
    simp [hplen]
  · rw [hxseq, List.map_append, hpids]
    simp
  · rw [hxseq]
    refine validSeq_append_single p.seq nw0 p.nw _ hpex hpval (by simpa using hnz1)
      (by simpa using hnz2) ?_
    show (mergeTensors p.nw pr.1.1 pr.2.1 0).isSome = true
    rw [hm]
    rfl

theorem mem_runPass {q0 : Type} [LinearOrder q0] [Add q0] {fc : CTensor → CTensor → q0}
    {w : Nat} {lp : Bool} {nid : Nat} {ips : List (CPath q0)} {x : CPath q0}
    (hx : x ∈ runPass fc w lp nid ips) :
    ∃ p ∈ ips, x ∈ childrenOf fc lp nid p := by
  rcases mem_processCands hx with h | h
  · exact List.mem_flatMap.1 h
  · simp at h

theorem childrenOf_exists {q0 : Type} [Add q0] (fc : CTensor → CTensor → q0) (lp : Bool)
    (nid : Nat) (p : CPath q0) (h2 : 2 ≤ getNumTensors p.nw) :
    ∃ x, x ∈ childrenOf fc lp nid p := by
  have hlen : 2 ≤ (p.nw.filter (fun e => decide (e.1 ≠ 0))).length := h2
  have hne : p.nw.filter (fun e => decide (e.1 ≠ 0)) ≠ [] := by
    intro hnil
    rw [hnil] at hlen
    simp at hlen
  obtain ⟨a, l1, hl1⟩ := List.exists_cons_of_ne_nil hne
  have hne2 : l1 ≠ [] := by
    intro hnil
    rw [hl1, hnil] at hlen
    simp at hlen
  obtain ⟨b, l2, hl2⟩ := List.exists_cons_of_ne_nil hne2
  have hpr : ((a, b) : (Nat × CTensor) × (Nat × CTensor)) ∈ pairCands p.nw := by
    rw [pairCands_eq_allPairs, hl1, hl2, allPairs]
    exact List.mem_append.2 (Or.inl (List.mem_map.2 ⟨b, List.mem_cons_self _ _, rfl⟩))
  obtain ⟨_, _, nw2, hm, _⟩ := pairCands_merge hpr nid
  have hmk : mkChild fc lp nid p (a, b) =
      some { nw := nw2,
             seq := p.seq ++ [{ result_id := if lp then 0 else nid,
                                left_id := (a, b).1.1, right_id := (a, b).2.1 }],
             cost := p.cost + fc (a, b).1.2 (a, b).2.2 } := by
    unfold mkChild
    rw [hm]
  exact ⟨_, List.mem_filterMap.2 ⟨(a, b), hpr, hmk⟩⟩

theorem runPass_ne_nil {q0 : Type} [LinearOrder q0] [Add q0] {fc : CTensor → CTensor → q0}
    {w : Nat} {lp : Bool} {nid : Nat} {ips : List (CPath q0)}
    (hw : 1 ≤ w) (hne : ips ≠ []) (h2 : ∀ p ∈ ips, 2 ≤ getNumTensors p.nw) :
    runPass fc w lp nid ips ≠ [] := by
  obtain ⟨p0, rest, hips⟩ := List.exists_cons_of_ne_nil hne
  obtain ⟨x, hx⟩ := childrenOf_exists fc lp nid p0
    (h2 p0 (by rw [hips]; exact List.mem_cons_self _ _))
  have hcand : x ∈ ips.flatMap (childrenOf fc lp nid) :=
    List.mem_flatMap.2 ⟨p0, by rw [hips]; exact List.mem_cons_self _ _, hx⟩
  have hclen : 1 ≤ (ips.flatMap (childrenOf fc lp nid)).length :=
    List.length_pos.2 (List.ne_nil_of_mem hcand)
  obtain ⟨d, _, _, hlen, _⟩ := processCands_spec (w := w)
    (ips.flatMap (childrenOf fc lp nid)) [] (by simp [sortedByCostDesc]) (by simp)
  have : 1 ≤ (runPass fc w lp nid ips).length := by
    have h0 : (runPass fc w lp nid ips).length =
        min w (ips.flatMap (childrenOf fc lp nid)).length := by
      simpa [runPass] using hlen
    omega
  exact List.ne_nil_of_length_pos (by omega)

theorem runPasses_complete {q0 : Type} [LinearOrder q0] [Add q0]
    (fc : CTensor → CTensor → q0) (w : Nat) (gen : Nat → Nat) (nw0 : TensorNetwork)
    (numContr : Nat) (hw : 1 ≤ w) (hg : ∀ i, gen i ≠ 0) :
    ∀ (r pass : Nat) (ips : List (CPath q0)), 1 ≤ r → pass + r = numContr →
      ips ≠ [] → (∀ p ∈ ips, PathInv nw0 gen numContr pass p) →
      ∃ seq fl, runPasses fc w gen pass r ips = some (seq, fl) ∧
        seq.length = numContr ∧
        seq.map (fun t => t.result_id) = (List.range (numContr - 1)).map gen ++ [0] ∧
        validSeq nw0 seq = true := by
  intro r
  induction r with
  | zero => intro pass ips hr; omega
  | succ k ih =>
    intro pass ips _ hpr hne hinv
    cases k with
    | zero =>
      rw [runPasses_one]
      have h2 : ∀ p ∈ ips, 2 ≤ getNumTensors p.nw := by
        intro p hp
        have := (hinv p hp).2.2.2.1
        omega
      have hq : runPass fc w true (gen pass) ips ≠ [] := runPass_ne_nil hw hne h2
      cases hL : (runPass fc w true (gen pass) ips).getLast? with
      | none => exact absurd (List.getLast?_eq_none_iff.1 hL) hq
      | some x =>
        have hmem : x ∈ runPass fc w true (gen pass) ips := List.mem_of_mem_getLast? hL
        obtain ⟨p, hp, hxc⟩ := mem_runPass hmem
        obtain ⟨hlen, hmap, hvalid⟩ := child_last_inv (hinv p hp) hxc
        refine ⟨x.seq, x.cost, rfl, ?_, ?_, hvalid⟩
        · rw [hlen]; omega
        · rw [hmap]
          have hpass : pass = numContr - 1 := by omega
          rw [hpass]
    | succ k2 =>
      rw [runPasses_step]
      have h2 : ∀ p ∈ ips, 2 ≤ getNumTensors p.nw := by
        intro p hp
        have := (hinv p hp).2.2.2.1
        omega
      refine ih (pass + 1) (runPass fc w false (gen pass) ips) (by omega) (by omega)
        (runPass_ne_nil hw hne h2) ?_
      intro x hx
      obtain ⟨p, hp, hxc⟩ := mem_runPass hx
      exact child_inv (hinv p hp) (hg pass) hxc

theorem determineContractionSequence_spec {q0 : Type} [LinearOrder q0] [Add q0] [Zero q0]
    (fc : CTensor → CTensor → q0) (w : Nat) (nw : TensorNetwork) (gen : Nat → Nat)
    (hw : 1 ≤ w) (hn : 2 ≤ getNumTensors nw) (hg : ∀ i, gen i ≠ 0) :
    ∃ seq fl, determineContractionSequence fc w nw gen = some (seq, fl) ∧
      seq.length = getNumTensors nw - 1 ∧
      seq.map (fun t => t.result_id) =
        (List.range (getNumTensors nw - 2)).map gen ++ [0] ∧
      validSeq nw seq = true := by
  have hnum : ¬ (getNumTensors nw - 1 = 0) := by omega
  have hinit : PathInv nw gen (getNumTensors nw - 1) 0 (⟨nw, [], 0⟩ : CPath q0) := by
    refine ⟨rfl, rfl, rfl, ?_, by simp [execSeq]⟩
    show getNumTensors nw + 0 = (getNumTensors nw - 1) + 1
    omega
  obtain ⟨seq, fl, hrun, hlen, hmap, hvalid⟩ :=
    runPasses_complete fc w gen nw (getNumTensors nw - 1) hw hg (getNumTensors nw - 1) 0
      [⟨nw, [], 0⟩] (by omega) (by omega) (by simp)
      (by intro p hp; rcases List.mem_singleton.1 hp with rfl; exact hinit)
  refine ⟨seq, fl, ?_, hlen, ?_, hvalid⟩
  · unfold determineContractionSequence
    simp only [if_neg hnum]
    exact hrun
  · rw [hmap]
    have : getNumTensors nw - 1 - 1 = getNumTensors nw - 2 := by omega
    rw [this]

/-- C3: on an input network with at least 2 input factors (and a beam width of
at least 1 with a generator of nonzero fresh ids), the planner emits exactly
n - 1 contraction triples; the final triple's result id is 0 (the output
tensor), every other result id is the generator's output for its pass, and
every left and right id names an input factor present in the network state at
that step (the sequence is valid). -/
theorem c3_planner_output_shape {q0 : Type} [LinearOrder q0] [Add q0] [Zero q0]
    (fc : CTensor → CTensor → q0) (w : Nat) (nw : TensorNetwork) (gen : Nat → Nat)
    (hw : 1 ≤ w) (hn : 2 ≤ getNumTensors nw) (hg : ∀ i, gen i ≠ 0) :
    ∃ seq fl, determineContractionSequence fc w nw gen = some (seq, fl) ∧
      seq.length = getNumTensors nw - 1 ∧
      seq.map (fun t => t.result_id) =
        (List.range (getNumTensors nw - 2)).map gen ++ [0] ∧
      validSeq nw seq = true :=
  determineContractionSequence_spec fc w nw gen hw hn hg

/-- C3 (witness): on the three-factor network with width 2 the planner output
has the claimed shape. -/
theorem c3_planner_output_witness :
    1 ≤ 2 ∧ 2 ≤ getNumTensors nwThree ∧ (∀ i, genFresh i ≠ 0) ∧
    (∃ seq fl, determineContractionSequence costW 2 nwThree genFresh = some (seq, fl) ∧
      seq.length = getNumTensors nwThree - 1 ∧
      seq.map (fun t => t.result_id) =
        (List.range (getNumTensors nwThree - 2)).map genFresh ++ [0] ∧
      validSeq nwThree seq = true) :=
  ⟨by decide, by decide, fun i => by simp [genFresh],
    c3_planner_output_shape costW 2 nwThree genFresh (by decide) (by decide)
      (fun i => by simp [genFresh])⟩

/-- C10: with a beam width of at least 1, an input network with at least 2
input factors and a generator of nonzero fresh ids, the planner's priority
queue is nonempty wherever it is read, in particular at the final-pass drain,
so the run reaches a result (the empty-queue access branch is unreachable). -/
theorem c10_final_drain_reached {q0 : Type} [LinearOrder q0] [Add q0] [Zero q0]
    (fc : CTensor → CTensor → q0) (w : Nat) (nw : TensorNetwork) (gen : Nat → Nat)
    (hw : 1 ≤ w) (hn : 2 ≤ getNumTensors nw) (hg : ∀ i, gen i ≠ 0) :
    (determineContractionSequence fc w nw gen).isSome = true := by
  obtain ⟨seq, fl, hrun, _, _, _⟩ := determineContractionSequence_spec fc w nw gen hw hn hg
  rw [hrun]
  rfl

/-- C10 (witness): the four-factor network at width 1 reaches a result. -/
theorem c10_final_drain_witness :
    1 ≤ 1 ∧ 2 ≤ getNumTensors nwFour ∧ (∀ i, genFresh i ≠ 0) ∧
    (determineContractionSequence costW 1 nwFour genFresh).isSome = true :=
  ⟨by decide, by decide, fun i => by simp [genFresh],
    c10_final_drain_reached costW 1 nwFour genFresh (by decide) (by decide)
      (fun i => by simp [genFresh])⟩
